import Mathlib

/-!
# Verification of the tray-app INI configuration core

Shallow embedding of the INI-handling core of `src/src-tauri/src/main.rs`:
the scoped key reader (`read_tdx_dir_from_ini`), the structure-preserving
writer (`write_tdx_dir_to_ini`), the path-validation flows
(`ensure_tdx_path_configured`, `set_new_tdx_path`), the sync-log formatter
(`extract_db_date_display`, `get_sync_log`) and the auth extractor
(`get_auth_info`).

Text is modelled as `List Char`.  Rust's `str::lines`, `str::trim`,
`str::split_once` and `eq_ignore_ascii_case` are modelled by `rustLines`,
`trim`, `splitOnce` and `eqIgnoreAsciiCase` below.  `trim` uses an ASCII
whitespace set (Rust's `char::is_whitespace` additionally covers Unicode
space characters, which none of the configuration keys or claims
exercise).  The filesystem is abstracted as a record holding the settings
file's content (`none` when the file does not exist) and the
`<base>/T0002/signals` existence predicate used for validation.
-/

namespace TrayApp

/-- ASCII whitespace predicate (the ASCII fragment of Rust `char::is_whitespace`). -/
def isWs (c : Char) : Bool :=
  c = ' ' || c = '\t' || c = '\n' || c = '\r' || c = '\x0b' || c = '\x0c'

/-- Rust `str::trim_start`. -/
def trimL (l : List Char) : List Char := l.dropWhile isWs

/-- Rust `str::trim_end`. -/
def trimR (l : List Char) : List Char := (l.reverse.dropWhile isWs).reverse

/-- Rust `str::trim`. -/
def trim (l : List Char) : List Char := trimR (trimL l)

/-- Rust `str::split_once(sep)`: split at the first occurrence of `sep`. -/
def splitOnce (sep : Char) : List Char → Option (List Char × List Char)
  | [] => none
  | c :: cs =>
    if c = sep then some ([], cs)
    else (splitOnce sep cs).map (fun p => (c :: p.1, p.2))

/-- Strip one trailing carriage return (the `\r` of a `\r\n` line ending). -/
def stripCr (l : List Char) : List Char :=
  if l.getLast? = some '\r' then l.dropLast else l

/-- Worker for `rustLines`: `cur` holds the current line, reversed. -/
def rustLinesGo (cur : List Char) : List Char → List (List Char)
  | [] => if cur = [] then [] else [cur.reverse]
  | c :: cs =>
    if c = '\n' then stripCr cur.reverse :: rustLinesGo [] cs
    else rustLinesGo (c :: cur) cs

/-- Rust `str::lines`: split at `\n`, strip a `\r` preceding each `\n`,
no final empty line when the text ends with a line terminator. -/
def rustLines (s : List Char) : List (List Char) := rustLinesGo [] s

/-- Rust `str::eq_ignore_ascii_case` (via ASCII `Char.toLower`). -/
def eqIgnoreAsciiCase (a b : List Char) : Bool :=
  a.map Char.toLower == b.map Char.toLower

/-- A trimmed line is a section header when it starts with `[` and ends with `]`
(the test used by `read_tdx_dir_from_ini` and `write_tdx_dir_to_ini`). -/
def isHeaderT (t : List Char) : Bool :=
  t.head? == some '[' && t.getLast? == some ']'

/-- The section name of a trimmed header line: the text between the brackets
(Rust `&trimmed[1..trimmed.len()-1]`). -/
def sectName (t : List Char) : List Char := (t.drop 1).dropLast

/-- A trimmed line is a `TDX_Directory` assignment when it splits on `=` and its
trimmed key equals `TDX_Directory` up to ASCII case. -/
def isTdxAssign (t : List Char) : Bool :=
  match splitOnce '=' t with
  | some (k, _) => eqIgnoreAsciiCase (trim k) "TDX_Directory".data
  | none => false

/-- A raw line is a `TDX_Directory` assignment (after trimming). -/
def isTdxLine (l : List Char) : Bool := isTdxAssign (trim l)

/-- A raw line is a `[Paths]` section header (after trimming, case-insensitive). -/
def isPathsHeaderLine (l : List Char) : Bool :=
  let t := trim l
  isHeaderT t && eqIgnoreAsciiCase (sectName t) "Paths".data

/-- The loop of `read_tdx_dir_from_ini`: track whether the scan is inside a
`Paths` section; return the trimmed value of the first `TDX_Directory`
assignment found there. -/
def readTdxLines (inPaths : Bool) : List (List Char) → Option (List Char)
  | [] => none
  | l :: rest =>
    let t := trim l
    if isHeaderT t then
      readTdxLines (eqIgnoreAsciiCase (sectName t) "Paths".data) rest
    else if inPaths then
      match splitOnce '=' t with
      | some (k, v) =>
        if eqIgnoreAsciiCase (trim k) "TDX_Directory".data then some (trim v)
        else readTdxLines inPaths rest
      | none => readTdxLines inPaths rest
    else readTdxLines inPaths rest

/-- `read_tdx_dir_from_ini`: `none` when the settings file does not exist
(the `fs::read_to_string(..).ok()?` step), otherwise scan its lines. -/
def read_tdx_dir_from_ini : Option (List Char) → Option (List Char)
  | none => none
  | some content => readTdxLines false (rustLines content)

/-- The replacement line `TDX_Directory = {new_dir}` built by the writer. -/
def mkTdxLine (newDir : List Char) : List Char := "TDX_Directory = ".data ++ newDir

/-- The line-emitting loop of `write_tdx_dir_to_ini` for an existing file.
State `inP` is `in_paths`, `uK` is `updated_key`; on a header met while
inside `Paths` with the key not yet updated, the new key line is inserted
before the header; a `TDX_Directory` assignment inside `Paths` is replaced
by the new key line; all other lines are copied. -/
def writeScanLines (lineNew : List Char) (inP uK : Bool) :
    List (List Char) → List (List Char)
  | [] => []
  | l :: rest =>
    let t := trim l
    if isHeaderT t then
      (if inP && !uK then [lineNew] else []) ++
        l :: writeScanLines lineNew (eqIgnoreAsciiCase (sectName t) "Paths".data) uK rest
    else if inP && isTdxAssign t then
      lineNew :: writeScanLines lineNew inP true rest
    else
      l :: writeScanLines lineNew inP uK rest

/-- The `in_paths` flag after scanning the given lines (only headers change it). -/
def hdrState (inP : Bool) : List (List Char) → Bool
  | [] => inP
  | l :: rest =>
    let t := trim l
    hdrState (if isHeaderT t then eqIgnoreAsciiCase (sectName t) "Paths".data else inP) rest

/-- The `updated_key` flag after scanning the given lines. -/
def updState (inP uK : Bool) : List (List Char) → Bool
  | [] => uK
  | l :: rest =>
    let t := trim l
    if isHeaderT t then
      updState (eqIgnoreAsciiCase (sectName t) "Paths".data) uK rest
    else if inP && isTdxAssign t then updState inP true rest
    else updState inP uK rest

/-- The `found_paths` flag: some line is a `[Paths]` header. -/
def anyPathsHeader (ls : List (List Char)) : Bool := ls.any isPathsHeaderLine

/-- Join lines, terminating every line with a single `\n`
(each `out.push_str(line); out.push('\n')` step of the writer). -/
def unlines (ls : List (List Char)) : List Char :=
  (ls.map (fun l => l ++ ['\n'])).flatten

/-- The full line sequence emitted by `write_tdx_dir_to_ini` for an existing
file: the scan's lines, then the end-of-file insertion when the scan ends
inside `Paths` with the key not updated, then a blank line, a `[Paths]`
header and the key line when no `Paths` header was found. -/
def writeLinesTo (ls : List (List Char)) (lineNew : List Char) : List (List Char) :=
  writeScanLines lineNew false false ls
    ++ (if hdrState false ls && !updState false false ls then [lineNew] else [])
    ++ (if anyPathsHeader ls then [] else [[], "[Paths]".data, lineNew])

/-- `write_tdx_dir_to_ini`, as the content of the settings file after the
call: rewritten content for an existing file (`some`), or the fresh
`[Paths]`/key-line file when the file did not exist (`none`). -/
def write_tdx_dir_to_ini : Option (List Char) → List Char → List Char
  | some content, newDir => unlines (writeLinesTo (rustLines content) (mkTdxLine newDir))
  | none, newDir => unlines [ "[Paths]".data, mkTdxLine newDir ]

/-- The status record returned by the path commands. -/
structure TdxPathStatus where
  path : List Char
  is_valid : Bool
  error_msg : List Char
deriving DecidableEq, Repr

/-- The filesystem state the path commands touch: the settings file's
content (`none` when absent) and, for each base directory string, whether
`<base>/T0002/signals` exists. -/
structure FileSys where
  ini : Option (List Char)
  signalsOk : List Char → Bool

/-- The hard-coded default base directory `C:\new_tdx`. -/
def defaultTdxPath : List Char := "C:\\new_tdx".data

/-- Diagnostic issued by `ensure_tdx_path_configured` on an invalid path. -/
def invalidSavedMsg : List Char := "默认或已存路径无效, 请手动设置".data

/-- Diagnostic issued by `set_new_tdx_path` on an invalid candidate. -/
def invalidCandidateMsg : List Char :=
  "错误：您选择的路径不合法！请确保所选目录下存在 T0002\\signals 文件夹。".data

/-- `ensure_tdx_path_configured`: read the saved directory (default
`C:\new_tdx` when absent), validate it via `<path>/T0002/signals`; when
valid and nothing was saved, persist it; when invalid, change nothing and
report the fixed diagnostic.  Returns the filesystem after the call and
the status. -/
def ensure_tdx_path_configured (fs : FileSys) : FileSys × TdxPathStatus :=
  let saved := read_tdx_dir_from_ini fs.ini
  let tdx_path := saved.getD defaultTdxPath
  if fs.signalsOk tdx_path then
    ({ fs with ini := if saved.isNone then some (write_tdx_dir_to_ini fs.ini tdx_path) else fs.ini },
     { path := tdx_path, is_valid := true, error_msg := [] })
  else
    (fs, { path := tdx_path, is_valid := false, error_msg := invalidSavedMsg })

/-- `set_new_tdx_path`: validate the candidate via `<candidate>/T0002/signals`;
persist it when valid, otherwise change nothing and report the fixed
subfolder-requirement diagnostic. -/
def set_new_tdx_path (fs : FileSys) (new_path : List Char) : FileSys × TdxPathStatus :=
  if fs.signalsOk new_path then
    ({ fs with ini := some (write_tdx_dir_to_ini fs.ini new_path) },
     { path := new_path, is_valid := true, error_msg := [] })
  else
    (fs, { path := new_path, is_valid := false, error_msg := invalidCandidateMsg })

/-- First fixed sync-log label, `上次同步时间` ("last sync time"). -/
def syncLabel1 : List Char := "上次同步时间".data

/-- Second fixed sync-log label, `上次检查时间` ("last check time"). -/
def syncLabel2 : List Char := "上次检查时间".data

/-- A trimmed line is a sync-log candidate when it starts with either label. -/
def isSyncCandT (t : List Char) : Bool :=
  syncLabel1.isPrefixOf t || syncLabel2.isPrefixOf t

/-- A raw line is a sync-log candidate (after trimming). -/
def isSyncCandLine (l : List Char) : Bool := isSyncCandT (trim l)

/-- The date token of a candidate's value: truncate at the first `(` when
present, then trim. -/
def syncDatePart (v : List Char) : List Char :=
  let val := trim v
  match splitOnce '(' val with
  | some (d, _) => trim d
  | none => val

/-- `extract_db_date_display`: remember the last trimmed line starting with
either label; if it exists and splits on `=`, produce the prefix line
`数据库日期: {date}\n`, otherwise produce nothing. -/
def extract_db_date_display (content : List Char) : List Char :=
  let last := (rustLines content).foldl
    (fun acc l => let t := trim l; if isSyncCandT t then some t else acc) none
  match last with
  | some l =>
    match splitOnce '=' l with
    | some (_, v) => "数据库日期: ".data ++ syncDatePart v ++ ['\n']
    | none => []
  | none => []

/-- `get_sync_log` on successfully read content: the derived prefix followed
by the unmodified content. -/
def get_sync_log (content : List Char) : List Char :=
  extract_db_date_display content ++ content

/-- The record produced by `get_auth_info`. -/
structure AuthInfo where
  machine_code : List Char
  user_type_display : List Char
  auth_end : List Char
deriving DecidableEq, Repr

/-- Rust `str::to_lowercase` restricted to ASCII (the keys compared are ASCII). -/
def toLowerStr (l : List Char) : List Char := l.map Char.toLower

/-- The loop of `get_auth_info`: a line starting with `[` toggles `in_auth`
(exactly when the trimmed line equals `[AUTH]` up to ASCII case); inside
`AUTH`, non-blank non-comment `key=value` lines record the three
recognized keys, later occurrences overwriting earlier ones. -/
def authFold (inAuth : Bool)
    (acc : Option (List Char) × Option (List Char) × Option (List Char)) :
    List (List Char) → Option (List Char) × Option (List Char) × Option (List Char)
  | [] => acc
  | l :: rest =>
    let t := trim l
    if t.head? == some '[' then
      authFold (eqIgnoreAsciiCase t "[AUTH]".data) acc rest
    else if !inAuth || t == [] || t.head? == some ';' || t.head? == some '#' then
      authFold inAuth acc rest
    else
      match splitOnce '=' t with
      | some (k, v) =>
        let key := toLowerStr (trim k)
        let val := trim v
        if key == "machine_code".data then authFold inAuth (some val, acc.2.1, acc.2.2) rest
        else if key == "auth_type".data then authFold inAuth (acc.1, some val, acc.2.2) rest
        else if key == "auth_end".data then authFold inAuth (acc.1, acc.2.1, some val) rest
        else authFold inAuth acc rest
      | none => authFold inAuth acc rest

/-- The "(not found)" sentinel `(未找到)`. -/
def notFound : List Char := "(未找到)".data

/-- `get_auth_info` on successfully read content: collect the three keys from
the `AUTH` section and map `auth_type` through the fixed display table. -/
def get_auth_info (content : List Char) : AuthInfo :=
  let r := authFold false (none, none, none) (rustLines content)
  let user : List Char :=
    match r.2.1 with
    | some v =>
      if v == "free".data then "免费用户".data
      else if v == "trial".data then "试用用户".data
      else v
    | none => notFound
  { machine_code := r.1.getD notFound
    user_type_display := user
    auth_end := r.2.2.getD notFound }

/-- The `auth_type` value collected by `get_auth_info`'s scan. -/
def authTypeOf (content : List Char) : Option (List Char) :=
  (authFold false (none, none, none) (rustLines content)).2.1

/-- The `TDX_Directory` assignment lines lying inside a `Paths`-scoped region,
using the same header tracking as the reader and writer. -/
def tdxAssignLinesAux (inP : Bool) : List (List Char) → List (List Char)
  | [] => []
  | l :: rest =>
    let t := trim l
    if isHeaderT t then
      tdxAssignLinesAux (eqIgnoreAsciiCase (sectName t) "Paths".data) rest
    else if inP && isTdxAssign t then
      l :: tdxAssignLinesAux inP rest
    else
      tdxAssignLinesAux inP rest

/-- The `TDX_Directory` assignment lines of a file's lines, in order. -/
def tdxAssignLines (ls : List (List Char)) : List (List Char) :=
  tdxAssignLinesAux false ls

/-- The (trimmed) value carried by a `key = value` line. -/
def lineValue (l : List Char) : List Char :=
  match splitOnce '=' (trim l) with
  | some (_, v) => trim v
  | none => []

/-- A line is unrelated to the directory setting, in the sense of the
round-trip claim: a section header of a section other than `Paths`, a
comment line, or an assignment whose key is not `TDX_Directory`. -/
def unrelatedLine (l : List Char) : Bool :=
  let t := trim l
  (isHeaderT t && !eqIgnoreAsciiCase (sectName t) "Paths".data)
    || (t.head? == some ';' || t.head? == some '#')
    || (match splitOnce '=' t with
        | some (k, _) => !eqIgnoreAsciiCase (trim k) "TDX_Directory".data
        | none => false)

/-! ## Helper lemmas: trimming -/

theorem length_dropWhile_le' (p : α → Bool) (l : List α) :
    (l.dropWhile p).length ≤ l.length := by
  induction l with
  | nil => simp
  | cons a l ih =>
    by_cases hp : p a
    · rw [List.dropWhile_cons_of_pos hp]
      exact Nat.le_trans ih (by simp)
    · rw [List.dropWhile_cons_of_neg hp]

theorem dropWhile_eq_self_of_length {p : α → Bool} {l : List α}
    (h : (l.dropWhile p).length = l.length) : l.dropWhile p = l := by
  induction l with
  | nil => rfl
  | cons a l ih =>
    by_cases hp : p a
    · rw [List.dropWhile_cons_of_pos hp] at h ⊢
      have := length_dropWhile_le' p l
      simp at h
      omega
    · exact List.dropWhile_cons_of_neg hp

theorem trimL_cons_of_ws {a : Char} {l : List Char} (h : isWs a = true) :
    trimL (a :: l) = trimL l := by
  simp [trimL, List.dropWhile_cons, h]

theorem trimL_cons_of_not_ws {a : Char} {l : List Char} (h : isWs a = false) :
    trimL (a :: l) = a :: l := by
  simp [trimL, List.dropWhile_cons, h]

theorem trimR_nil : trimR [] = [] := rfl

theorem trimR_eq_nil_iff {l : List Char} : trimR l = [] ↔ ∀ c ∈ l, isWs c = true := by
  constructor
  · intro h c hc
    have : l.reverse.dropWhile isWs = [] := by
      have := congrArg List.reverse h
      simpa [trimR] using this
    exact (List.dropWhile_eq_nil_iff).1 this c (by simpa using hc)
  · intro h
    have : l.reverse.dropWhile isWs = [] :=
      (List.dropWhile_eq_nil_iff).2 (fun c hc => h c (by simpa using hc))
    simp [trimR, this]

theorem trimL_eq_nil_iff {l : List Char} : trimL l = [] ↔ ∀ c ∈ l, isWs c = true := by
  simp [trimL, List.dropWhile_eq_nil_iff]

theorem trimR_cons (a : Char) (l : List Char) :
    trimR (a :: l) =
      if trimR l = [] then (if isWs a then [] else [a]) else a :: trimR l := by
  have h : (a :: l).reverse = l.reverse ++ [a] := by simp
  rw [trimR, h, List.dropWhile_append]
  by_cases he : l.reverse.dropWhile isWs = []
  · have : trimR l = [] := by simp [trimR, he]
    simp only [he, List.isEmpty_nil, if_pos this]
    by_cases hw : isWs a <;> simp [List.dropWhile_cons, hw]
  · have : ¬ trimR l = [] := by
      simp only [trimR]
      intro hc
      exact he (by simpa using congrArg List.reverse hc)
    rw [if_neg (by simpa [List.isEmpty_iff] using he), if_neg this]
    simp [trimR]

theorem trimR_cons_of_not_ws {a : Char} {l : List Char} (h : isWs a = false) :
    trimR (a :: l) = a :: trimR l := by
  rw [trimR_cons]
  by_cases he : trimR l = [] <;> simp [he, h]

theorem trimR_append (xs ys : List Char) :
    trimR (xs ++ ys) = if trimR ys = [] then trimR xs else xs ++ trimR ys := by
  have h : (xs ++ ys).reverse = ys.reverse ++ xs.reverse := by simp
  rw [trimR, h, List.dropWhile_append]
  by_cases he : ys.reverse.dropWhile isWs = []
  · have : trimR ys = [] := by simp [trimR, he]
    simp [he, this, trimR]
  · have h2 : ¬ trimR ys = [] := by
      simp only [trimR]
      intro hc
      exact he (by simpa using congrArg List.reverse hc)
    rw [if_neg (by simpa [List.isEmpty_iff] using he), if_neg h2]
    simp [trimR]

theorem trimR_idem (l : List Char) : trimR (trimR l) = trimR l := by
  have : ∀ m : List Char, (m.dropWhile isWs).dropWhile isWs = m.dropWhile isWs := by
    intro m
    induction m with
    | nil => rfl
    | cons a m ih =>
      by_cases hp : isWs a
      · rw [List.dropWhile_cons_of_pos hp, ih]
      · rw [List.dropWhile_cons_of_neg hp, List.dropWhile_cons_of_neg hp]
  simp [trimR, this]

theorem trimL_trimR_comm (l : List Char) : trimL (trimR l) = trimR (trimL l) := by
  induction l with
  | nil => rfl
  | cons a l ih =>
    by_cases hr : trimR l = []
    · have hall : ∀ c ∈ l, isWs c = true := trimR_eq_nil_iff.1 hr
      have hL : trimL l = [] := trimL_eq_nil_iff.2 hall
      by_cases hw : isWs a
      · rw [trimR_cons, if_pos hr, if_pos hw, trimL_cons_of_ws hw, hL]
        rfl
      · rw [trimR_cons, if_pos hr, if_neg hw,
          trimL_cons_of_not_ws (by simpa using hw),
          trimL_cons_of_not_ws (by simpa using hw), trimR_cons, if_pos hr, if_neg hw]
    · rw [trimR_cons, if_neg hr]
      by_cases hw : isWs a
      · rw [trimL_cons_of_ws hw, trimL_cons_of_ws hw, ih]
      · rw [trimL_cons_of_not_ws (by simpa using hw),
          trimL_cons_of_not_ws (by simpa using hw), trimR_cons, if_neg hr]

theorem trim_trimR (l : List Char) : trim (trimR l) = trim l := by
  rw [trim, trimL_trimR_comm, trimR_idem, trim]

theorem trim_cons_of_ws {a : Char} {l : List Char} (h : isWs a = true) :
    trim (a :: l) = trim l := by
  rw [trim, trimL_cons_of_ws h, trim]

theorem trim_cons_of_not_ws {a : Char} {l : List Char} (h : isWs a = false) :
    trim (a :: l) = a :: trimR l := by
  rw [trim, trimL_cons_of_not_ws h, trimR_cons_of_not_ws h]

theorem trimL_eq_self_of_trim_eq_self {l : List Char} (h : trim l = l) :
    trimL l = l := by
  have h1 : (trimL l).length ≤ l.length := length_dropWhile_le' isWs l
  have h2 : (trim l).length ≤ (trimL l).length := by
    rw [trim, trimR]
    calc ((trimL l).reverse.dropWhile isWs).reverse.length
        = ((trimL l).reverse.dropWhile isWs).length := by simp
      _ ≤ (trimL l).reverse.length := length_dropWhile_le' isWs _
      _ = (trimL l).length := by simp
  rw [h] at h2
  exact dropWhile_eq_self_of_length (Nat.le_antisymm h1 h2)

theorem trimR_eq_self_of_trim_eq_self {l : List Char} (h : trim l = l) :
    trimR l = l := by
  have := trimL_eq_self_of_trim_eq_self h
  rw [trim, this] at h
  exact h

/-! ## Helper lemmas: splitOnce -/

theorem splitOnce_eq_none_of_not_mem {sep : Char} {t : List Char} (h : sep ∉ t) :
    splitOnce sep t = none := by
  induction t with
  | nil => rfl
  | cons c cs ih =>
    have hc : ¬ c = sep := fun hc => h (by simp [hc])
    simp only [splitOnce, if_neg hc, ih (fun hm => h (List.mem_cons_of_mem _ hm))]
    rfl

theorem splitOnce_append_of_not_mem {sep : Char} {xs ys : List Char} (h : sep ∉ xs) :
    splitOnce sep (xs ++ sep :: ys) = some (xs, ys) := by
  induction xs with
  | nil => simp [splitOnce]
  | cons c cs ih =>
    have hc : ¬ c = sep := fun hc => h (by simp [hc])
    have hrec := ih (fun hm => h (List.mem_cons_of_mem _ hm))
    simp only [List.cons_append, splitOnce, if_neg hc]
    rw [List.append_eq, hrec]
    rfl

theorem splitOnce_eq_some {sep : Char} {t k v : List Char}
    (h : splitOnce sep t = some (k, v)) : t = k ++ sep :: v ∧ sep ∉ k := by
  induction t generalizing k with
  | nil => simp [splitOnce] at h
  | cons c cs ih =>
    by_cases hc : c = sep
    · simp only [splitOnce, if_pos hc, Option.some.injEq, Prod.mk.injEq] at h
      obtain ⟨hk, hv⟩ := h
      subst hk hv hc
      simp
    · simp only [splitOnce, if_neg hc] at h
      cases hs : splitOnce sep cs with
      | none => rw [hs] at h; simp [Option.map] at h
      | some p =>
        rw [hs] at h
        obtain ⟨k', v'⟩ := p
        simp only [Option.map, Option.some.injEq, Prod.mk.injEq] at h
        obtain ⟨hk, hv⟩ := h
        subst hv
        obtain ⟨ht, hnm⟩ := @ih k' (by rw [hs])
        constructor
        · rw [← hk, ht]; simp
        · rw [← hk]
          intro hm
          rcases List.mem_cons.1 hm with h1 | h1
          · exact hc h1.symm
          · exact hnm h1

/-! ## Helper lemmas: case-insensitive comparison -/

theorem eqIC_iff {a b : List Char} :
    eqIgnoreAsciiCase a b = true ↔ a.map Char.toLower = b.map Char.toLower := by
  simp [eqIgnoreAsciiCase]

theorem eqIC_refl (a : List Char) : eqIgnoreAsciiCase a a = true := by
  simp [eqIgnoreAsciiCase]

theorem eqIC_nil_tdx : eqIgnoreAsciiCase [] "TDX_Directory".data = false := by decide

/-- A list that compares case-insensitively equal to `TDX_Directory` starts
with a character lowering to `t`. -/
theorem head_lower_of_eqIC_tdx {k : List Char} {c : Char}
    (h : eqIgnoreAsciiCase k "TDX_Directory".data = true) (hc : k.head? = some c) :
    c.toLower = 't' := by
  have hm := eqIC_iff.1 h
  have : (k.map Char.toLower).head? = some 't' := by
    rw [hm]; decide
  rw [List.head?_map, hc] at this
  simpa using this

/-! ## Helper lemmas: the new key line -/

theorem mkTdxLine_eq (d : List Char) :
    mkTdxLine d = "TDX_Directory =".data ++ (' ' :: d) := by
  simp [mkTdxLine]

theorem trim_mkTdxLine (d : List Char) :
    trim (mkTdxLine d) = "TDX_Directory =".data ++ trimR (' ' :: d) := by
  have hshape : mkTdxLine d = 'T' :: ("DX_Directory =".data ++ (' ' :: d)) := rfl
  rw [hshape, trim_cons_of_not_ws (by decide), trimR_append]
  by_cases h : trimR (' ' :: d) = []
  · rw [if_pos h, h]
    have hc : trimR "DX_Directory =".data = "DX_Directory =".data := by decide
    rw [hc]
    simp
  · rw [if_neg h]
    rfl

theorem splitOnce_trim_mkTdxLine (d : List Char) :
    splitOnce '=' (trim (mkTdxLine d)) = some ("TDX_Directory ".data, trimR (' ' :: d)) := by
  rw [trim_mkTdxLine]
  have hshape : "TDX_Directory =".data ++ trimR (' ' :: d)
      = "TDX_Directory ".data ++ '=' :: trimR (' ' :: d) := rfl
  rw [hshape]
  exact splitOnce_append_of_not_mem (by decide)

theorem isTdxLine_mkTdxLine (d : List Char) : isTdxLine (mkTdxLine d) = true := by
  simp only [isTdxLine, isTdxAssign, splitOnce_trim_mkTdxLine]
  decide

theorem head_trim_mkTdxLine (d : List Char) :
    (trim (mkTdxLine d)).head? = some 'T' := by
  rw [trim_mkTdxLine]
  rfl

theorem isHeaderT_trim_mkTdxLine (d : List Char) :
    isHeaderT (trim (mkTdxLine d)) = false := by
  simp [isHeaderT, head_trim_mkTdxLine]

theorem isPathsHeaderLine_mkTdxLine (d : List Char) :
    isPathsHeaderLine (mkTdxLine d) = false := by
  simp [isPathsHeaderLine, isHeaderT_trim_mkTdxLine]

theorem unrelatedLine_mkTdxLine (d : List Char) :
    unrelatedLine (mkTdxLine d) = false := by
  simp only [unrelatedLine, isHeaderT_trim_mkTdxLine, head_trim_mkTdxLine,
    splitOnce_trim_mkTdxLine, Bool.false_and, Bool.false_or]
  decide

theorem lineValue_mkTdxLine (d : List Char) : lineValue (mkTdxLine d) = trim d := by
  simp only [lineValue, splitOnce_trim_mkTdxLine]
  rw [trim_trimR, trim_cons_of_ws (by decide)]

theorem nl_not_mem_mkTdxLine {d : List Char} (h : '\n' ∉ d) : '\n' ∉ mkTdxLine d := by
  intro hm
  rcases List.mem_append.1 hm with h1 | h1
  · exact absurd h1 (by decide)
  · exact h h1

theorem getLast?_ne_cr_of_trimR_eq_self {l : List Char} (h : trimR l = l) :
    l.getLast? ≠ some '\r' := by
  intro hlast
  have hhead : l.reverse.head? = some '\r' := by
    rw [List.head?_reverse]; exact hlast
  obtain ⟨tail, htail⟩ : ∃ tail, l.reverse = '\r' :: tail := by
    cases hr : l.reverse with
    | nil => rw [hr] at hhead; simp at hhead
    | cons a t =>
      rw [hr] at hhead
      simp at hhead
      exact ⟨t, by rw [hhead]⟩
  have hlen : (trimR l).length < l.length := by
    rw [trimR, htail, List.dropWhile_cons_of_pos (by decide : isWs '\r' = true)]
    have h1 : (tail.dropWhile isWs).length ≤ tail.length := length_dropWhile_le' isWs tail
    have h2 : tail.length + 1 = l.length := by
      have := congrArg List.length htail
      simp at this
      omega
    simp
    omega
  rw [h] at hlen
  omega

theorem stripCr_mkTdxLine {d : List Char} (h : trim d = d) :
    stripCr (mkTdxLine d) = mkTdxLine d := by
  rw [stripCr, if_neg]
  cases hd : d with
  | nil => subst hd; decide
  | cons a t =>
    rw [← hd]
    have hne : d ≠ [] := by rw [hd]; simp
    have : (mkTdxLine d).getLast? = d.getLast? := by
      rw [mkTdxLine]
      exact List.getLast?_append_of_ne_nil _ hne
    rw [this]
    exact getLast?_ne_cr_of_trimR_eq_self (trimR_eq_self_of_trim_eq_self h)

/-! ## Helper lemmas: line splitting -/

theorem mem_stripCr {a : Char} {l : List Char} (h : a ∈ stripCr l) : a ∈ l := by
  unfold stripCr at h
  split at h
  · exact List.dropLast_subset l h
  · exact h

theorem rustLinesGo_append {pre rest : List Char} (cur : List Char) (h : '\n' ∉ pre) :
    rustLinesGo cur (pre ++ '\n' :: rest)
      = stripCr (cur.reverse ++ pre) :: rustLinesGo [] rest := by
  induction pre generalizing cur with
  | nil =>
    simp only [List.nil_append, List.append_nil, rustLinesGo]
    simp
  | cons a pre ih =>
    have ha : ¬ a = '\n' := fun hh => h (by simp [hh])
    rw [List.cons_append]
    simp only [rustLinesGo, if_neg ha]
    rw [ih (a :: cur) (fun hm => h (List.mem_cons_of_mem _ hm))]
    simp

theorem rustLines_unlines {L : List (List Char)}
    (h : ∀ l ∈ L, '\n' ∉ l ∧ stripCr l = l) :
    rustLines (unlines L) = L := by
  induction L with
  | nil => rfl
  | cons l L ih =>
    have hl := h l (by simp)
    have hshape : unlines (l :: L) = l ++ '\n' :: unlines L := by
      simp [unlines]
    rw [rustLines, hshape, rustLinesGo_append [] hl.1]
    rw [List.reverse_nil, List.nil_append, hl.2]
    exact congrArg _ (ih (fun x hx => h x (List.mem_cons_of_mem _ hx)))

theorem nl_not_mem_rustLinesGo {s : List Char} {l : List Char} {cur : List Char}
    (hcur : '\n' ∉ cur) (hmem : l ∈ rustLinesGo cur s) : '\n' ∉ l := by
  induction s generalizing cur with
  | nil =>
    simp only [rustLinesGo] at hmem
    by_cases hc : cur = []
    · simp [hc] at hmem
    · rw [if_neg hc] at hmem
      simp only [List.mem_singleton] at hmem
      subst hmem
      simpa using hcur
  | cons a s ih =>
    simp only [rustLinesGo] at hmem
    by_cases ha : a = '\n'
    · rw [if_pos ha] at hmem
      rcases List.mem_cons.1 hmem with h1 | h1
      · subst h1
        intro hm
        exact hcur (by simpa using mem_stripCr hm)
      · exact ih (List.not_mem_nil '\n') h1
    · rw [if_neg ha] at hmem
      refine ih ?_ hmem
      intro hm
      rcases List.mem_cons.1 hm with h1 | h1
      · exact ha h1.symm
      · exact hcur h1

theorem nl_not_mem_rustLines {s : List Char} {l : List Char}
    (h : l ∈ rustLines s) : '\n' ∉ l :=
  nl_not_mem_rustLinesGo (by simp) h

/-! ## Helper lemmas: the writer's scan -/

theorem writeScanLines_cons (lineNew l : List Char) (inP uK : Bool) (rest : List (List Char)) :
    writeScanLines lineNew inP uK (l :: rest) =
      if isHeaderT (trim l) then
        (if inP && !uK then [lineNew] else []) ++
          l :: writeScanLines lineNew (eqIgnoreAsciiCase (sectName (trim l)) "Paths".data) uK rest
      else if inP && isTdxAssign (trim l) then
        lineNew :: writeScanLines lineNew inP true rest
      else l :: writeScanLines lineNew inP uK rest := rfl

theorem hdrState_cons (l : List Char) (inP : Bool) (rest : List (List Char)) :
    hdrState inP (l :: rest) =
      hdrState (if isHeaderT (trim l) then eqIgnoreAsciiCase (sectName (trim l)) "Paths".data
                else inP) rest := rfl

theorem updState_cons (l : List Char) (inP uK : Bool) (rest : List (List Char)) :
    updState inP uK (l :: rest) =
      if isHeaderT (trim l) then
        updState (eqIgnoreAsciiCase (sectName (trim l)) "Paths".data) uK rest
      else if inP && isTdxAssign (trim l) then updState inP true rest
      else updState inP uK rest := rfl

theorem tdxAssignLinesAux_cons (l : List Char) (inP : Bool) (rest : List (List Char)) :
    tdxAssignLinesAux inP (l :: rest) =
      if isHeaderT (trim l) then
        tdxAssignLinesAux (eqIgnoreAsciiCase (sectName (trim l)) "Paths".data) rest
      else if inP && isTdxAssign (trim l) then l :: tdxAssignLinesAux inP rest
      else tdxAssignLinesAux inP rest := rfl

theorem readTdxLines_cons (l : List Char) (inP : Bool) (rest : List (List Char)) :
    readTdxLines inP (l :: rest) =
      if isHeaderT (trim l) then
        readTdxLines (eqIgnoreAsciiCase (sectName (trim l)) "Paths".data) rest
      else if inP then
        match splitOnce '=' (trim l) with
        | some (k, v) =>
          if eqIgnoreAsciiCase (trim k) "TDX_Directory".data then some (trim v)
          else readTdxLines inP rest
        | none => readTdxLines inP rest
      else readTdxLines inP rest := rfl

theorem hdrState_append (xs ys : List (List Char)) (inP : Bool) :
    hdrState inP (xs ++ ys) = hdrState (hdrState inP xs) ys := by
  induction xs generalizing inP with
  | nil => rfl
  | cons l xs ih => rw [List.cons_append, hdrState_cons, ih, hdrState_cons]

theorem tdxAssignLinesAux_append (xs ys : List (List Char)) (inP : Bool) :
    tdxAssignLinesAux inP (xs ++ ys) =
      tdxAssignLinesAux inP xs ++ tdxAssignLinesAux (hdrState inP xs) ys := by
  induction xs generalizing inP with
  | nil => rfl
  | cons l xs ih =>
    rw [List.cons_append, tdxAssignLinesAux_cons, tdxAssignLinesAux_cons, hdrState_cons]
    by_cases h1 : isHeaderT (trim l)
    · rw [if_pos h1, if_pos h1, if_pos h1, ih]
    · rw [if_neg h1, if_neg h1, if_neg h1]
      by_cases h2 : inP && isTdxAssign (trim l)
      · rw [if_pos h2, if_pos h2, ih, List.cons_append]
      · rw [if_neg h2, if_neg h2, ih]

theorem hdrState_writeScanLines {lineNew : List Char}
    (hln : isHeaderT (trim lineNew) = false) (ls : List (List Char)) (inP uK : Bool) :
    hdrState inP (writeScanLines lineNew inP uK ls) = hdrState inP ls := by
  induction ls generalizing inP uK with
  | nil => rfl
  | cons l rest ih =>
    rw [writeScanLines_cons, hdrState_cons]
    by_cases h1 : isHeaderT (trim l)
    · rw [if_pos h1, if_pos h1, hdrState_append]
      have hpre : ∀ b : Bool, hdrState inP (if b then [lineNew] else []) = inP := by
        intro b
        cases b
        · rfl
        · rw [if_pos rfl, hdrState_cons, if_neg (by simp [hln])]
          rfl
      rw [hpre, hdrState_cons, if_pos h1, ih]
    · rw [if_neg h1, if_neg h1]
      by_cases h2 : inP && isTdxAssign (trim l)
      · rw [if_pos h2, hdrState_cons, if_neg (by simp [hln]), ih]
      · rw [if_neg h2, hdrState_cons, if_neg h1, ih]

theorem filter_writeScanLines {Q : List Char → Bool} {lineNew : List Char}
    (hQn : Q lineNew = false)
    (hQt : ∀ l, isTdxAssign (trim l) = true → Q l = false)
    (ls : List (List Char)) (inP uK : Bool) :
    (writeScanLines lineNew inP uK ls).filter Q = ls.filter Q := by
  induction ls generalizing inP uK with
  | nil => rfl
  | cons l rest ih =>
    rw [writeScanLines_cons]
    by_cases h1 : isHeaderT (trim l)
    · rw [if_pos h1, List.filter_append]
      have hpre : ∀ b : Bool, (if b then [lineNew] else []).filter Q = [] := by
        intro b
        cases b
        · rfl
        · rw [if_pos rfl]
          simp [List.filter_cons, hQn]
      rw [hpre, List.nil_append, List.filter_cons, List.filter_cons, ih]
    · rw [if_neg h1]
      by_cases h2 : inP && isTdxAssign (trim l)
      · rw [if_pos h2]
        rw [Bool.and_eq_true] at h2
        have hl : Q l = false := hQt l h2.2
        rw [List.filter_cons, List.filter_cons, hQn, hl]
        simp only [Bool.false_eq_true, if_neg]
        exact ih inP true
      · rw [if_neg h2, List.filter_cons, List.filter_cons, ih]

theorem anyPathsHeader_writeScanLines {lineNew : List Char} (ls : List (List Char))
    (inP uK : Bool) (h : anyPathsHeader ls = true) :
    anyPathsHeader (writeScanLines lineNew inP uK ls) = true := by
  induction ls generalizing inP uK with
  | nil => simp [anyPathsHeader] at h
  | cons l rest ih =>
    rw [writeScanLines_cons]
    by_cases h1 : isHeaderT (trim l)
    · rw [if_pos h1]
      by_cases hp : isPathsHeaderLine l = true
      · unfold anyPathsHeader
        simp [hp]
      · have hrest : anyPathsHeader rest = true := by
          unfold anyPathsHeader at h
          simp only [List.any_cons, Bool.or_eq_true] at h
          rcases h with h | h
          · exact absurd h hp
          · exact h
        unfold anyPathsHeader
        simp only [List.any_append, List.any_cons, Bool.or_eq_true]
        right; right
        exact ih _ uK hrest
    · have hp : isPathsHeaderLine l = false := by
        unfold isPathsHeaderLine
        simp [h1]
      have hrest : anyPathsHeader rest = true := by
        unfold anyPathsHeader at h
        simp only [List.any_cons, Bool.or_eq_true] at h
        rcases h with h | h
        · rw [hp] at h; exact absurd h (by simp)
        · exact h
      rw [if_neg h1]
      by_cases h2 : inP && isTdxAssign (trim l)
      · rw [if_pos h2]
        unfold anyPathsHeader
        simp only [List.any_cons, Bool.or_eq_true]
        right
        exact ih inP true hrest
      · rw [if_neg h2]
        unfold anyPathsHeader
        simp only [List.any_cons, Bool.or_eq_true]
        right
        exact ih inP uK hrest

theorem anyPathsHeader_writeLinesTo (ls : List (List Char)) (lineNew : List Char) :
    anyPathsHeader (writeLinesTo ls lineNew) = true := by
  unfold writeLinesTo
  unfold anyPathsHeader
  rw [List.any_append, List.any_append]
  cases hp : ls.any isPathsHeaderLine with
  | true =>
    have h1 := @anyPathsHeader_writeScanLines lineNew ls false false hp
    unfold anyPathsHeader at h1
    rw [h1]
    simp
  | false =>
    have hB : (if false = true then ([] : List (List Char))
        else [[], "[Paths]".data, lineNew]).any isPathsHeaderLine = true := by
      rw [if_neg (by simp)]
      simp only [List.any_cons, List.any_nil]
      have h2 : isPathsHeaderLine "[Paths]".data = true := by decide
      rw [h2]
      simp
    rw [hB]
    simp

theorem mem_if_singleton {lineNew l : List Char} {b : Bool}
    (h : l ∈ (if b = true then [lineNew] else [])) : l = lineNew := by
  cases b
  · simp at h
  · rw [if_pos rfl] at h
    simpa using h

theorem mem_writeScanLines {lineNew : List Char} {ls : List (List Char)}
    {inP uK : Bool} {l : List Char} (h : l ∈ writeScanLines lineNew inP uK ls) :
    l ∈ ls ∨ l = lineNew := by
  induction ls generalizing inP uK with
  | nil => simp [writeScanLines] at h
  | cons x rest ih =>
    rw [writeScanLines_cons] at h
    by_cases h1 : isHeaderT (trim x)
    · rw [if_pos h1] at h
      rcases List.mem_append.1 h with hm | hm
      · exact Or.inr (mem_if_singleton hm)
      · rcases List.mem_cons.1 hm with hm1 | hm1
        · left; simp [hm1]
        · rcases ih hm1 with hi | hi
          · left; exact List.mem_cons_of_mem _ hi
          · right; exact hi
    · rw [if_neg h1] at h
      by_cases h2 : inP && isTdxAssign (trim x)
      · rw [if_pos h2] at h
        rcases List.mem_cons.1 h with hm1 | hm1
        · right; exact hm1
        · rcases ih hm1 with hi | hi
          · left; exact List.mem_cons_of_mem _ hi
          · right; exact hi
      · rw [if_neg h2] at h
        rcases List.mem_cons.1 h with hm1 | hm1
        · left; simp [hm1]
        · rcases ih hm1 with hi | hi
          · left; exact List.mem_cons_of_mem _ hi
          · right; exact hi

theorem mem_writeLinesTo {ls : List (List Char)} {lineNew : List Char} {l : List Char}
    (h : l ∈ writeLinesTo ls lineNew) :
    l ∈ ls ∨ l = lineNew ∨ l = [] ∨ l = "[Paths]".data := by
  unfold writeLinesTo at h
  rcases List.mem_append.1 h with hm | hm
  · rcases List.mem_append.1 hm with hm1 | hm1
    · rcases mem_writeScanLines hm1 with hi | hi
      · exact Or.inl hi
      · exact Or.inr (Or.inl hi)
    · exact Or.inr (Or.inl (mem_if_singleton hm1))
  · rcases Bool.eq_false_or_eq_true (anyPathsHeader ls) with hb | hb
    · rw [hb] at hm
      simp at hm
    · rw [hb, if_neg (by simp)] at hm
      rcases List.mem_cons.1 hm with hm1 | hm1
      · right; right; left; exact hm1
      · rcases List.mem_cons.1 hm1 with hm2 | hm2
        · right; right; right; exact hm2
        · right; left; simpa using hm2

theorem tdx_aux_singleton {lineNew : List Char}
    (hln : isHeaderT (trim lineNew) = false) (s : Bool) {l : List Char}
    (h : l ∈ tdxAssignLinesAux s [lineNew]) : l = lineNew := by
  rw [tdxAssignLinesAux_cons, if_neg (by simp [hln])] at h
  by_cases h3 : s && isTdxAssign (trim lineNew)
  · rw [if_pos h3] at h
    rcases List.mem_cons.1 h with hm | hm
    · exact hm
    · simp [tdxAssignLinesAux] at hm
  · rw [if_neg h3] at h
    simp [tdxAssignLinesAux] at h

theorem tdx_aux_of_if {lineNew : List Char}
    (hln : isHeaderT (trim lineNew) = false) (s b : Bool) {l : List Char}
    (h : l ∈ tdxAssignLinesAux s (if b then [lineNew] else [])) : l = lineNew := by
  cases b
  · simp [tdxAssignLinesAux] at h
  · rw [if_pos rfl] at h
    exact tdx_aux_singleton hln s h

theorem tdx_aux_section_append {lineNew : List Char}
    (hln : isHeaderT (trim lineNew) = false) (s : Bool) {l : List Char}
    (h : l ∈ tdxAssignLinesAux s [[], "[Paths]".data, lineNew]) : l = lineNew := by
  have e1 : isHeaderT (trim ([] : List Char)) = false := by decide
  have e2 : isTdxAssign (trim ([] : List Char)) = false := by decide
  have e3 : isHeaderT (trim "[Paths]".data) = true := by decide
  have e4 : eqIgnoreAsciiCase (sectName (trim "[Paths]".data)) "Paths".data = true := by decide
  rw [tdxAssignLinesAux_cons, if_neg (by simp [e1]), if_neg (by simp [e2]),
    tdxAssignLinesAux_cons, if_pos e3, e4] at h
  exact tdx_aux_singleton hln true h

theorem tdx_writeScanLines_all {lineNew : List Char}
    (hln : isHeaderT (trim lineNew) = false) (ls : List (List Char)) (inP uK : Bool)
    {l : List Char}
    (h : l ∈ tdxAssignLinesAux inP (writeScanLines lineNew inP uK ls)) : l = lineNew := by
  induction ls generalizing inP uK with
  | nil => simp [writeScanLines, tdxAssignLinesAux] at h
  | cons x rest ih =>
    rw [writeScanLines_cons] at h
    by_cases h1 : isHeaderT (trim x)
    · rw [if_pos h1, tdxAssignLinesAux_append] at h
      rcases List.mem_append.1 h with hm | hm
      · exact tdx_aux_of_if hln inP (inP && !uK) hm
      · have hst : ∀ b : Bool, hdrState inP (if b then [lineNew] else []) = inP := by
          intro b
          cases b
          · rfl
          · rw [if_pos rfl, hdrState_cons, if_neg (by simp [hln])]
            rfl
        rw [hst, tdxAssignLinesAux_cons, if_pos h1] at hm
        exact ih _ uK hm
    · rw [if_neg h1] at h
      by_cases h2 : inP && isTdxAssign (trim x)
      · rw [if_pos h2, tdxAssignLinesAux_cons, if_neg (by simp [hln])] at h
        by_cases h3 : inP && isTdxAssign (trim lineNew)
        · rw [if_pos h3] at h
          rcases List.mem_cons.1 h with hm1 | hm1
          · exact hm1
          · exact ih inP true hm1
        · rw [if_neg h3] at h
          exact ih inP true h
      · rw [if_neg h2, tdxAssignLinesAux_cons, if_neg h1, if_neg h2] at h
        exact ih inP uK h

theorem tdx_writeLinesTo_all {lineNew : List Char}
    (hln : isHeaderT (trim lineNew) = false) (ls : List (List Char)) {l : List Char}
    (h : l ∈ tdxAssignLines (writeLinesTo ls lineNew)) : l = lineNew := by
  unfold writeLinesTo tdxAssignLines at h
  rw [tdxAssignLinesAux_append, tdxAssignLinesAux_append] at h
  rcases List.mem_append.1 h with hm | hm
  · rcases List.mem_append.1 hm with hm1 | hm1
    · exact tdx_writeScanLines_all hln ls false false hm1
    · exact tdx_aux_of_if hln _ _ hm1
  · rcases Bool.eq_false_or_eq_true (anyPathsHeader ls) with hb | hb
    · rw [hb] at hm
      simp [tdxAssignLinesAux] at hm
    · rw [hb, if_neg (show ¬ (false = true) by simp)] at hm
      exact tdx_aux_section_append hln _ hm

theorem tdx_aux_section_ne_nil {lineNew : List Char}
    (hln : isHeaderT (trim lineNew) = false) (hlt : isTdxAssign (trim lineNew) = true)
    (s : Bool) :
    tdxAssignLinesAux s [[], "[Paths]".data, lineNew] ≠ [] := by
  have e1 : isHeaderT (trim ([] : List Char)) = false := by decide
  have e2 : isTdxAssign (trim ([] : List Char)) = false := by decide
  have e3 : isHeaderT (trim "[Paths]".data) = true := by decide
  have e4 : eqIgnoreAsciiCase (sectName (trim "[Paths]".data)) "Paths".data = true := by decide
  rw [tdxAssignLinesAux_cons, if_neg (by simp [e1]), if_neg (by simp [e2]),
    tdxAssignLinesAux_cons, if_pos e3, e4,
    tdxAssignLinesAux_cons, if_neg (by simp [hln]), if_pos (by simp [hlt])]
  simp

theorem tdx_scan_eof_ne_nil {lineNew : List Char}
    (hln : isHeaderT (trim lineNew) = false) (hlt : isTdxAssign (trim lineNew) = true) :
    ∀ (ls : List (List Char)) (inP : Bool),
      (inP = true ∨ anyPathsHeader ls = true) →
      tdxAssignLinesAux inP (writeScanLines lineNew inP false ls
        ++ (if (hdrState inP ls && !updState inP false ls) = true then [lineNew] else [])) ≠ [] := by
  intro ls
  induction ls with
  | nil =>
    intro inP h
    have hip : inP = true := by
      rcases h with h | h
      · exact h
      · simp [anyPathsHeader] at h
    subst hip
    rw [show writeScanLines lineNew true false [] = [] from rfl,
      show hdrState true ([] : List (List Char)) = true from rfl,
      show updState true false ([] : List (List Char)) = false from rfl,
      if_pos (by simp), List.nil_append,
      tdxAssignLinesAux_cons, if_neg (by simp [hln]), if_pos (by simp [hlt])]
    simp
  | cons x rest ih =>
    intro inP h
    rw [writeScanLines_cons]
    by_cases h1 : isHeaderT (trim x)
    · rw [if_pos h1]
      cases inP with
      | true =>
        rw [if_pos (by simp), List.singleton_append, List.cons_append,
          tdxAssignLinesAux_cons, if_neg (by simp [hln]), if_pos (by simp [hlt])]
        simp
      | false =>
        rw [if_neg (by simp), List.nil_append, List.cons_append,
          tdxAssignLinesAux_cons, if_pos h1, hdrState_cons, if_pos h1,
          updState_cons, if_pos h1]
        refine ih _ ?_
        rcases h with h | h
        · exact absurd h (by simp)
        · rcases Bool.eq_false_or_eq_true
            (eqIgnoreAsciiCase (sectName (trim x)) "Paths".data) with hpx | hpx
          · left; exact hpx
          · right
            unfold anyPathsHeader at h
            simp only [List.any_cons, Bool.or_eq_true] at h
            rcases h with h | h
            · exact absurd h (by simp [isPathsHeaderLine, h1, hpx])
            · exact h
    · rw [if_neg h1]
      cases inP with
      | true =>
        rcases Bool.eq_false_or_eq_true (isTdxAssign (trim x)) with h2 | h2
        · rw [if_pos (by simp [h2]), List.cons_append, tdxAssignLinesAux_cons,
            if_neg (by simp [hln]), if_pos (by simp [hlt])]
          simp
        · rw [if_neg (show ¬ ((true && isTdxAssign (trim x)) = true) by simp [h2]),
            List.cons_append, tdxAssignLinesAux_cons, if_neg h1,
            if_neg (show ¬ ((true && isTdxAssign (trim x)) = true) by simp [h2]),
            hdrState_cons, if_neg h1, updState_cons, if_neg h1,
            if_neg (show ¬ ((true && isTdxAssign (trim x)) = true) by simp [h2])]
          exact ih true (Or.inl rfl)
      | false =>
        rw [if_neg (show ¬ ((false && isTdxAssign (trim x)) = true) by simp),
          List.cons_append, tdxAssignLinesAux_cons, if_neg h1,
          if_neg (show ¬ ((false && isTdxAssign (trim x)) = true) by simp),
          hdrState_cons, if_neg h1, updState_cons, if_neg h1,
          if_neg (show ¬ ((false && isTdxAssign (trim x)) = true) by simp)]
        refine ih false ?_
        right
        rcases h with h | h
        · exact absurd h (by simp)
        · unfold anyPathsHeader at h
          simp only [List.any_cons, Bool.or_eq_true] at h
          rcases h with h | h
          · exact absurd h (by simp [isPathsHeaderLine, h1])
          · exact h

theorem tdx_writeLinesTo_ne_nil {lineNew : List Char}
    (hln : isHeaderT (trim lineNew) = false) (hlt : isTdxAssign (trim lineNew) = true)
    (ls : List (List Char)) :
    tdxAssignLines (writeLinesTo ls lineNew) ≠ [] := by
  unfold writeLinesTo tdxAssignLines
  rcases Bool.eq_false_or_eq_true (anyPathsHeader ls) with hb | hb
  · rw [hb, if_pos rfl, List.append_nil]
    exact tdx_scan_eof_ne_nil hln hlt ls false (Or.inr hb)
  · rw [hb, if_neg (show ¬ (false = true) by simp), tdxAssignLinesAux_append]
    intro hc
    rcases List.append_eq_nil.1 hc with ⟨h1, h2⟩
    exact tdx_aux_section_ne_nil hln hlt _ h2

theorem readTdxLines_eq_head (ls : List (List Char)) (inP : Bool) :
    readTdxLines inP ls = (tdxAssignLinesAux inP ls).head?.map lineValue := by
  induction ls generalizing inP with
  | nil => rfl
  | cons l rest ih =>
    rw [readTdxLines_cons, tdxAssignLinesAux_cons]
    by_cases h1 : isHeaderT (trim l)
    · rw [if_pos h1, if_pos h1, ih]
    · rw [if_neg h1, if_neg h1]
      cases inP with
      | false =>
        rw [if_neg (by simp), if_neg (by simp)]
        exact ih false
      | true =>
        rw [if_pos rfl]
        cases hs : splitOnce '=' (trim l) with
        | none =>
          have hf : isTdxAssign (trim l) = false := by
            simp only [isTdxAssign, hs]
          simp only [hs]
          rw [if_neg (by simp [hf])]
          exact ih true
        | some p =>
          obtain ⟨k, v⟩ := p
          rcases Bool.eq_false_or_eq_true
            (eqIgnoreAsciiCase (trim k) "TDX_Directory".data) with he | he
          · have ht : isTdxAssign (trim l) = true := by
              simp only [isTdxAssign, hs]
              exact he
            simp only [hs, if_pos he]
            rw [if_pos (by simp [ht])]
            simp only [List.head?_cons]
            show some (trim v) = some (lineValue l)
            simp only [lineValue, hs]
          · have hf : isTdxAssign (trim l) = false := by
              simp only [isTdxAssign, hs]
              exact he
            simp only [hs]
            rw [if_neg (by simp [he]), if_neg (by simp [hf])]
            exact ih true

theorem filter_writeLinesTo {Q : List Char → Bool} {lineNew : List Char}
    (hQn : Q lineNew = false)
    (hQt : ∀ l, isTdxAssign (trim l) = true → Q l = false)
    (hQe : Q [] = false) (hQp : Q "[Paths]".data = false)
    (ls : List (List Char)) :
    (writeLinesTo ls lineNew).filter Q = ls.filter Q := by
  unfold writeLinesTo
  rw [List.filter_append, List.filter_append, filter_writeScanLines hQn hQt]
  have hA : ∀ b : Bool, (if b = true then [lineNew] else []).filter Q = [] := by
    intro b
    cases b
    · rfl
    · rw [if_pos rfl]
      simp [List.filter_cons, hQn]
  have hB : (if anyPathsHeader ls = true then ([] : List (List Char))
      else [[], "[Paths]".data, lineNew]).filter Q = [] := by
    rcases Bool.eq_false_or_eq_true (anyPathsHeader ls) with hb | hb
    · rw [hb, if_pos rfl]
      rfl
    · rw [hb, if_neg (show ¬ (false = true) by simp)]
      simp [List.filter_cons, hQe, hQp, hQn]
  rw [hA, hB, List.append_nil, List.append_nil]

theorem filter_writeLinesTo_of_found {Q : List Char → Bool} {lineNew : List Char}
    (hQn : Q lineNew = false)
    (hQt : ∀ l, isTdxAssign (trim l) = true → Q l = false)
    (ls : List (List Char)) (hfound : anyPathsHeader ls = true) :
    (writeLinesTo ls lineNew).filter Q = ls.filter Q := by
  unfold writeLinesTo
  rw [hfound, if_pos rfl, List.append_nil, List.filter_append,
    filter_writeScanLines hQn hQt]
  have hA : ∀ b : Bool, (if b = true then [lineNew] else []).filter Q = [] := by
    intro b
    cases b
    · rfl
    · rw [if_pos rfl]
      simp [List.filter_cons, hQn]
  rw [hA, List.append_nil]

/-! ## Helper lemmas: assignment lines are never "unrelated" -/

theorem eqIC_tdx_head_not {k : List Char} {c : Char}
    (he : eqIgnoreAsciiCase (trim k) "TDX_Directory".data = true)
    (hk : k.head? = some c) (hws : isWs c = false) : c.toLower = 't' := by
  obtain ⟨k2, hk2⟩ : ∃ k2, k = c :: k2 := by
    cases k with
    | nil => simp at hk
    | cons a t =>
      simp only [List.head?_cons, Option.some.injEq] at hk
      exact ⟨t, by rw [hk]⟩
  subst hk2
  rw [trim_cons_of_not_ws hws] at he
  exact head_lower_of_eqIC_tdx he rfl

theorem unrelatedLine_of_tdx {l : List Char} (ht : isTdxAssign (trim l) = true) :
    unrelatedLine l = false := by
  simp only [unrelatedLine]
  cases hs : splitOnce '=' (trim l) with
  | none =>
    simp only [isTdxAssign, hs] at ht
    exact absurd ht (by simp)
  | some p =>
    obtain ⟨k, v⟩ := p
    have he : eqIgnoreAsciiCase (trim k) "TDX_Directory".data = true := by
      simp only [isTdxAssign, hs] at ht
      exact ht
    obtain ⟨hteq, hnm⟩ := splitOnce_eq_some hs
    have hk_ne : k ≠ [] := by
      intro hknil
      subst hknil
      rw [show trim ([] : List Char) = [] from rfl] at he
      exact absurd he (by decide)
    obtain ⟨c, hck⟩ : ∃ c, k.head? = some c := by
      cases k with
      | nil => exact absurd rfl hk_ne
      | cons a t => exact ⟨a, rfl⟩
    have hlc : (trim l).head? = some c := by
      rw [hteq]
      cases k with
      | nil => exact absurd rfl hk_ne
      | cons a t =>
        simp only [List.head?_cons, Option.some.injEq] at hck
        simp [hck]
    have hne : ∀ c2 : Char, isWs c2 = false → ¬ c2.toLower = 't' → ¬ c = c2 := by
      intro c2 hw hlt hcc
      subst hcc
      exact hlt (eqIC_tdx_head_not he hck hw)
    have h1 : isHeaderT (trim l) = false := by
      unfold isHeaderT
      have hb : ((trim l).head? == some '[') = false := by
        rw [hlc]
        have := hne '[' (by decide) (by decide)
        simp [this]
      rw [hb, Bool.false_and]
    have h2 : ((trim l).head? == some ';') = false := by
      rw [hlc]
      have := hne ';' (by decide) (by decide)
      simp [this]
    have h3 : ((trim l).head? == some '#') = false := by
      rw [hlc]
      have := hne '#' (by decide) (by decide)
      simp [this]
    simp only [hs, h1, h2, h3, he]
    simp

/-! ## Helper lemmas: fold for the sync log, scan for auth -/

theorem foldl_last_filter {A B : Type} (p : A → Bool) (f : A → B) :
    ∀ (ls : List A) (init : Option B),
      ls.foldl (fun acc l => if p l then some (f l) else acc) init =
        (((ls.filter p).getLast?).map f).or init := by
  intro ls
  induction ls with
  | nil => intro init; rfl
  | cons l rest ih =>
    intro init
    rw [List.foldl_cons, ih, List.filter_cons]
    by_cases hp : p l
    · rw [if_pos hp, if_pos hp]
      cases hm : rest.filter p with
      | nil => simp
      | cons b m2 =>
        rw [List.getLast?_cons_cons]
        cases hg : (b :: m2).getLast? with
        | none => simp at hg
        | some x => simp
    · rw [if_neg hp, if_neg hp]

theorem authFold_no_auth (acc : Option (List Char) × Option (List Char) × Option (List Char))
    (ls : List (List Char))
    (h : ∀ l ∈ ls, eqIgnoreAsciiCase (trim l) "[AUTH]".data = false) :
    authFold false acc ls = acc := by
  induction ls with
  | nil => rfl
  | cons l rest ih =>
    have hl := h l (List.mem_cons_self l rest)
    have hrest := ih (fun x hx => h x (List.mem_cons_of_mem _ hx))
    show authFold false acc (l :: rest) = acc
    simp only [authFold]
    by_cases h1 : ((trim l).head? == some '[') = true
    · rw [if_pos h1, hl]
      exact hrest
    · rw [if_neg h1, if_pos (by simp)]
      exact hrest

/-! ## Claim theorems -/

/-- C1 (counterexample): writing `c` to a file whose `[Paths]` section holds two
`TDX_Directory` lines leaves two `TDX_Directory` lines in the Paths-scoped
region of the resulting file text — not at most one. -/
theorem c1_counterexample :
    (tdxAssignLines (rustLines (write_tdx_dir_to_ini
      (some "[Paths]\nTDX_Directory = a\nTDX_Directory = b\n".data) "c".data))).length = 2 := by
  decide

/-- C1 (amended): after `write_tdx_dir_to_ini`, every `TDX_Directory` assignment
line inside a Paths-scoped region of the emitted lines equals the new key line
`TDX_Directory = {new_dir}` — duplicates are each replaced in place rather than
collapsed — and at least one such line is present. -/
theorem c1_theorem (content newDir : List Char) :
    (tdxAssignLines (writeLinesTo (rustLines content) (mkTdxLine newDir))).all
        (fun l => l == mkTdxLine newDir) = true
      ∧ (tdxAssignLines (writeLinesTo (rustLines content) (mkTdxLine newDir))).isEmpty
        = false := by
  constructor
  · rw [List.all_eq_true]
    intro l hl
    have h := tdx_writeLinesTo_all (isHeaderT_trim_mkTdxLine newDir) (rustLines content) hl
    simp [h]
  · have hne := tdx_writeLinesTo_ne_nil (isHeaderT_trim_mkTdxLine newDir)
      (isTdxLine_mkTdxLine newDir) (rustLines content)
    rw [← Bool.not_eq_true]
    intro hc
    exact hne (List.isEmpty_iff.1 hc)

/-- C2 (counterexample): on duplicate `TDX_Directory` keys inside `[Paths]`,
`read_tdx_dir_from_ini` returns the FIRST occurrence's value `a`, while the
last occurrence's trimmed value is `b`. -/
theorem c2_counterexample :
    read_tdx_dir_from_ini (some "[Paths]\nTDX_Directory = a\nTDX_Directory = b\n".data)
        = some "a".data
      ∧ ((tdxAssignLines (rustLines
            "[Paths]\nTDX_Directory = a\nTDX_Directory = b\n".data)).getLast?).map lineValue
        = some "b".data
      ∧ ("a".data == "b".data) = false := by
  refine ⟨?_, ?_, ?_⟩ <;> decide

/-- C2 (amended): `read_tdx_dir_from_ini` returns the trimmed value of the
FIRST `TDX_Directory` assignment lying in a Paths-scoped region (the scan
returns as soon as it matches), not the last. -/
theorem c2_theorem (content : List Char) :
    read_tdx_dir_from_ini (some content) =
      ((tdxAssignLines (rustLines content)).head?).map lineValue := by
  show readTdxLines false (rustLines content) = _
  exact readTdxLines_eq_head (rustLines content) false

/-- C3: `write_tdx_dir_to_ini` emits the file as its line sequence joined with
newline terminators, and the unrelated lines of that sequence — headers of
sections other than `Paths`, comment lines, and assignments to keys other
than `TDX_Directory` — are exactly the unrelated lines of the input, byte
for byte and in the same relative order. -/
theorem c3_theorem (content newDir : List Char) :
    write_tdx_dir_to_ini (some content) newDir
        = unlines (writeLinesTo (rustLines content) (mkTdxLine newDir))
      ∧ (writeLinesTo (rustLines content) (mkTdxLine newDir)).filter unrelatedLine
        = (rustLines content).filter unrelatedLine :=
  ⟨rfl, filter_writeLinesTo (unrelatedLine_mkTdxLine newDir)
    (fun l hl => unrelatedLine_of_tdx hl) (by decide) (by decide) (rustLines content)⟩

/-- C5 (counterexample): with no saved path and a failing validation,
`ensure_tdx_path_configured` returns the default path `C:\new_tdx` in the
status — not an empty path value. -/
theorem c5_counterexample :
    (ensure_tdx_path_configured ⟨none, fun _ => false⟩).2.path = defaultTdxPath
      ∧ (defaultTdxPath == ([] : List Char)) = false := by
  refine ⟨rfl, by decide⟩

/-- C5 (amended): when the configured (saved or default) base directory fails
validation, `ensure_tdx_path_configured` returns the configured path itself
(not an empty one) with `is_valid = false` and the fixed diagnostic, and
leaves the filesystem — in particular the settings file — unchanged. -/
theorem c5_theorem (fs : FileSys)
    (h : fs.signalsOk ((read_tdx_dir_from_ini fs.ini).getD defaultTdxPath) = false) :
    ensure_tdx_path_configured fs =
      (fs, { path := (read_tdx_dir_from_ini fs.ini).getD defaultTdxPath,
             is_valid := false, error_msg := invalidSavedMsg }) := by
  simp only [ensure_tdx_path_configured]
  rw [h]
  simp

/-- C5 (witness): the amended theorem at the concrete state with no settings
file and no valid directory. -/
theorem c5_witness :
    ensure_tdx_path_configured ⟨none, fun _ => false⟩
      = (⟨none, fun _ => false⟩,
         { path := defaultTdxPath, is_valid := false, error_msg := invalidSavedMsg }) :=
  c5_theorem ⟨none, fun _ => false⟩ rfl

/-- C6: `set_new_tdx_path` on a candidate whose `T0002/signals` subfolder is
missing leaves the filesystem unchanged and reports `is_valid = false` with
the fixed subfolder-requirement message; and for both commands the returned
`is_valid` equals the existence of `<base>/T0002/signals` for the checked
base. -/
theorem c6_theorem :
    (∀ (fs : FileSys) (p : List Char), fs.signalsOk p = false →
        set_new_tdx_path fs p
          = (fs, { path := p, is_valid := false, error_msg := invalidCandidateMsg }))
      ∧ (∀ (fs : FileSys) (p : List Char),
          (set_new_tdx_path fs p).2.is_valid = fs.signalsOk p)
      ∧ (∀ fs : FileSys, (ensure_tdx_path_configured fs).2.is_valid
          = fs.signalsOk ((read_tdx_dir_from_ini fs.ini).getD defaultTdxPath)) := by
  refine ⟨?_, ?_, ?_⟩
  · intro fs p h
    simp only [set_new_tdx_path]
    rw [h]
    simp
  · intro fs p
    cases h : fs.signalsOk p with
    | false => simp [set_new_tdx_path, h]
    | true => simp [set_new_tdx_path, h]
  · intro fs
    cases h : fs.signalsOk ((read_tdx_dir_from_ini fs.ini).getD defaultTdxPath) with
    | false => simp [ensure_tdx_path_configured, h]
    | true => simp [ensure_tdx_path_configured, h]

/-- C6 (witness): the theorem at a concrete state in which no candidate
validates. -/
theorem c6_witness :
    set_new_tdx_path ⟨none, fun _ => false⟩ "q".data
        = (⟨none, fun _ => false⟩,
           { path := "q".data, is_valid := false, error_msg := invalidCandidateMsg })
      ∧ (set_new_tdx_path ⟨none, fun _ => false⟩ "q".data).2.is_valid = false :=
  ⟨c6_theorem.1 _ _ rfl, by rw [c6_theorem.2.1]⟩

/-- C9: for every status either command returns, `error_msg` is empty exactly
when `is_valid` is `true`. -/
theorem c9_theorem (fs : FileSys) (p : List Char) :
    ((ensure_tdx_path_configured fs).2.error_msg = []
        ↔ (ensure_tdx_path_configured fs).2.is_valid = true)
      ∧ ((set_new_tdx_path fs p).2.error_msg = []
        ↔ (set_new_tdx_path fs p).2.is_valid = true) := by
  constructor
  · cases h : fs.signalsOk ((read_tdx_dir_from_ini fs.ini).getD defaultTdxPath) with
    | false =>
      simp [ensure_tdx_path_configured, h,
        show invalidSavedMsg ≠ [] from by decide]
    | true => simp [ensure_tdx_path_configured, h]
  · cases h : fs.signalsOk p with
    | false =>
      simp [set_new_tdx_path, h,
        show invalidCandidateMsg ≠ [] from by decide]
    | true => simp [set_new_tdx_path, h]

/-- The fold of `extract_db_date_display` keeps the trimmed form of the last
line whose trim starts with one of the two labels. -/
theorem sync_fold_eq (ls : List (List Char)) :
    ls.foldl (fun acc l => let t := trim l; if isSyncCandT t then some t else acc) none =
      (((ls.filter isSyncCandLine).getLast?).map trim).or none := by
  have h : (fun (acc : Option (List Char)) (l : List Char) =>
        let t := trim l; if isSyncCandT t then some t else acc)
      = (fun acc l => if isSyncCandLine l then some (trim l) else acc) := rfl
  rw [h]
  exact foldl_last_filter isSyncCandLine trim ls none

/-- C7: `get_sync_log` selects the last line whose trimmed form starts with one
of the two fixed labels; when none exists the content is returned unchanged,
and when the selected line splits on `=` the content is prefixed with the
derived `数据库日期:` line whose date is the value truncated at the first `(`
and trimmed.  At the claim's concrete input the prepended date is
`2024-02-02`. -/
theorem c7_theorem :
    (∀ content : List Char,
        ((rustLines content).filter isSyncCandLine).getLast? = none →
          get_sync_log content = content)
      ∧ (∀ (content l k v : List Char),
          ((rustLines content).filter isSyncCandLine).getLast? = some l →
          splitOnce '=' (trim l) = some (k, v) →
          get_sync_log content
            = ("数据库日期: ".data ++ syncDatePart v ++ ['\n']) ++ content)
      ∧ get_sync_log "上次同步时间 = 2024-01-01 (note)\n上次检查时间 = 2024-02-02\n".data
          = "数据库日期: 2024-02-02\n".data
            ++ "上次同步时间 = 2024-01-01 (note)\n上次检查时间 = 2024-02-02\n".data := by
  refine ⟨?_, ?_, by decide⟩
  · intro content h
    unfold get_sync_log extract_db_date_display
    rw [sync_fold_eq, h]
    simp
  · intro content l k v h hsplit
    unfold get_sync_log extract_db_date_display
    rw [sync_fold_eq, h]
    simp [hsplit]

/-- C7 (witness): the theorem's branches at concrete inputs (empty log; the
claim's two-line log). -/
theorem c7_witness :
    get_sync_log "no dates here\n".data = "no dates here\n".data
      ∧ get_sync_log "上次检查时间 = 2024-02-02\n".data
        = ("数据库日期: ".data ++ syncDatePart " 2024-02-02".data ++ ['\n'])
          ++ "上次检查时间 = 2024-02-02\n".data :=
  ⟨c7_theorem.1 _ (by decide),
   c7_theorem.2.1 _ "上次检查时间 = 2024-02-02".data "上次检查时间 ".data " 2024-02-02".data
     (by decide) (by decide)⟩

/-- C8: inside a case-insensitive `[AUTH]` section, an effective
`auth_type=free` yields the localized free-user label, any other
non-`free`/`trial` value is passed through verbatim, and with no `[AUTH]`
header at all every `AuthInfo` field is the `(未找到)` sentinel regardless of
matching keys outside the section. -/
theorem c8_theorem :
    (∀ content : List Char, authTypeOf content = some "free".data →
        (get_auth_info content).user_type_display = "免费用户".data)
      ∧ (∀ (content v : List Char), authTypeOf content = some v →
          ¬ v = "free".data → ¬ v = "trial".data →
          (get_auth_info content).user_type_display = v)
      ∧ (∀ content : List Char,
          (∀ l ∈ rustLines content, eqIgnoreAsciiCase (trim l) "[AUTH]".data = false) →
          get_auth_info content =
            { machine_code := notFound, user_type_display := notFound,
              auth_end := notFound }) := by
  refine ⟨?_, ?_, ?_⟩
  · intro content hv
    unfold authTypeOf at hv
    simp only [get_auth_info, hv]
    simp
  · intro content v hv h1 h2
    unfold authTypeOf at hv
    simp only [get_auth_info, hv]
    rw [if_neg (by rw [beq_iff_eq]; exact h1), if_neg (by rw [beq_iff_eq]; exact h2)]
  · intro content hno
    simp only [get_auth_info, authFold_no_auth _ _ hno]
    rfl

/-- C8 (witness): the three branches at the claim's concrete inputs. -/
theorem c8_witness :
    (get_auth_info "[AUTH]\nauth_type=free\n".data).user_type_display = "免费用户".data
      ∧ (get_auth_info "[AUTH]\nauth_type=unknown_code\n".data).user_type_display
        = "unknown_code".data
      ∧ get_auth_info "machine_code=m\nauth_type=free\n".data
        = { machine_code := notFound, user_type_display := notFound,
            auth_end := notFound } :=
  ⟨c8_theorem.1 _ (by decide),
   c8_theorem.2.1 _ "unknown_code".data (by decide) (by decide) (by decide),
   c8_theorem.2.2 _ (by decide)⟩

/-- C10: for an existing file, `write_tdx_dir_to_ini` produces exactly its
emitted lines each terminated by one `\n` (no emitted line contains `\n`);
consequently an input CRLF line ending comes out as a bare LF and a missing
final newline is added, as the two concrete rewrites show. -/
theorem c10_theorem :
    (∀ (content newDir : List Char), '\n' ∉ newDir →
        write_tdx_dir_to_ini (some content) newDir
            = unlines (writeLinesTo (rustLines content) (mkTdxLine newDir))
          ∧ (writeLinesTo (rustLines content) (mkTdxLine newDir)).all
              (fun l => !(l.contains '\n')) = true)
      ∧ write_tdx_dir_to_ini (some "k = v\r\n[Paths]\nTDX_Directory = x\n".data) "y".data
          = "k = v\n[Paths]\nTDX_Directory = y\n".data
      ∧ write_tdx_dir_to_ini (some "[Paths]\nTDX_Directory = x".data) "y".data
          = "[Paths]\nTDX_Directory = y\n".data := by
  refine ⟨?_, by decide, by decide⟩
  intro content newDir hnl
  refine ⟨rfl, ?_⟩
  rw [List.all_eq_true]
  intro l hl
  have hmem : '\n' ∉ l := by
    rcases mem_writeLinesTo hl with hm | hm | hm | hm
    · exact nl_not_mem_rustLines hm
    · subst hm; exact nl_not_mem_mkTdxLine hnl
    · subst hm; simp
    · subst hm; decide
  simp [hmem]

/-- C10 (witness): the general part of the theorem at a concrete file and
directory. -/
theorem c10_witness :
    write_tdx_dir_to_ini (some "[A]\nx=1\n".data) "d".data
        = unlines (writeLinesTo (rustLines "[A]\nx=1\n".data) (mkTdxLine "d".data))
      ∧ (writeLinesTo (rustLines "[A]\nx=1\n".data) (mkTdxLine "d".data)).all
          (fun l => !(l.contains '\n')) = true :=
  c10_theorem.1 "[A]\nx=1\n".data "d".data (by decide)

/-- C4 (counterexample): writing the directory value `" a"` (leading space)
twice to an initially empty settings file yields a file whose read returns
the trimmed `"a"`, not `" a"`. -/
theorem c4_counterexample :
    read_tdx_dir_from_ini (some (write_tdx_dir_to_ini
        (some (write_tdx_dir_to_ini (some "".data) " a".data)) " a".data))
        = some "a".data
      ∧ (some " a".data == some "a".data) = false := by
  refine ⟨?_, ?_⟩ <;> decide

/-- C4 (amended): for a directory value `X` that is newline-free and equal to
its own trim, and an initial content none of whose lines ends in a stray
carriage return, writing `X` twice yields a file whose read returns `X`,
and the second write leaves the sequence (hence the set) of
non-`TDX_Directory` lines of the file unchanged. -/
theorem c4_theorem (c X : List Char) (hnl : '\n' ∉ X) (htr : trim X = X)
    (hcr : ∀ l ∈ rustLines c, stripCr l = l) :
    read_tdx_dir_from_ini
        (some (write_tdx_dir_to_ini (some (write_tdx_dir_to_ini (some c) X)) X))
        = some X
      ∧ (rustLines (write_tdx_dir_to_ini (some (write_tdx_dir_to_ini (some c) X)) X)).filter
            (fun l => !(isTdxLine l))
        = (rustLines (write_tdx_dir_to_ini (some c) X)).filter
            (fun l => !(isTdxLine l)) := by
  have hln := isHeaderT_trim_mkTdxLine X
  have hlt : isTdxAssign (trim (mkTdxLine X)) = true := isTdxLine_mkTdxLine X
  have hElem : ∀ (ls : List (List Char)), (∀ l ∈ ls, '\n' ∉ l ∧ stripCr l = l) →
      ∀ l ∈ writeLinesTo ls (mkTdxLine X), '\n' ∉ l ∧ stripCr l = l := by
    intro ls hls l hl
    rcases mem_writeLinesTo hl with hm | hm | hm | hm
    · exact hls l hm
    · subst hm
      exact ⟨nl_not_mem_mkTdxLine hnl, stripCr_mkTdxLine htr⟩
    · subst hm
      exact ⟨by simp, by decide⟩
    · subst hm
      exact ⟨by decide, by decide⟩
  have hc0 : ∀ l ∈ rustLines c, '\n' ∉ l ∧ stripCr l = l :=
    fun l hl => ⟨nl_not_mem_rustLines hl, hcr l hl⟩
  have hL1 : rustLines (write_tdx_dir_to_ini (some c) X)
      = writeLinesTo (rustLines c) (mkTdxLine X) :=
    rustLines_unlines (hElem (rustLines c) hc0)
  have hc1 : ∀ l ∈ rustLines (write_tdx_dir_to_ini (some c) X), '\n' ∉ l ∧ stripCr l = l := by
    rw [hL1]
    exact hElem (rustLines c) hc0
  have hL2 : rustLines (write_tdx_dir_to_ini (some (write_tdx_dir_to_ini (some c) X)) X)
      = writeLinesTo (rustLines (write_tdx_dir_to_ini (some c) X)) (mkTdxLine X) :=
    rustLines_unlines (hElem _ hc1)
  constructor
  · show readTdxLines false
        (rustLines (write_tdx_dir_to_ini (some (write_tdx_dir_to_ini (some c) X)) X)) = some X
    rw [hL2, readTdxLines_eq_head]
    have hne := tdx_writeLinesTo_ne_nil hln hlt
      (rustLines (write_tdx_dir_to_ini (some c) X))
    cases hT : tdxAssignLines (writeLinesTo
        (rustLines (write_tdx_dir_to_ini (some c) X)) (mkTdxLine X)) with
    | nil => exact absurd hT hne
    | cons hd tl =>
      have hmem : hd ∈ tdxAssignLines (writeLinesTo
          (rustLines (write_tdx_dir_to_ini (some c) X)) (mkTdxLine X)) := by
        rw [hT]
        exact List.mem_cons_self hd tl
      have hhd := tdx_writeLinesTo_all hln _ hmem
      show (tdxAssignLinesAux false (writeLinesTo
          (rustLines (write_tdx_dir_to_ini (some c) X)) (mkTdxLine X))).head?.map lineValue
        = some X
      rw [show tdxAssignLinesAux false (writeLinesTo
          (rustLines (write_tdx_dir_to_ini (some c) X)) (mkTdxLine X))
        = hd :: tl from hT]
      rw [List.head?_cons]
      show some (lineValue hd) = some X
      rw [hhd, lineValue_mkTdxLine, htr]
  · rw [hL2]
    refine filter_writeLinesTo_of_found ?_ ?_ _ ?_
    · show (!(isTdxLine (mkTdxLine X))) = false
      rw [isTdxLine_mkTdxLine X]
      rfl
    · intro l hl
      show (!(isTdxLine l)) = false
      show (!(isTdxAssign (trim l))) = false
      rw [hl]
      rfl
    · rw [hL1]
      exact anyPathsHeader_writeLinesTo (rustLines c) (mkTdxLine X)

/-- C4 (witness): the amended theorem at a concrete file and directory. -/
theorem c4_witness :
    read_tdx_dir_from_ini
        (some (write_tdx_dir_to_ini
          (some (write_tdx_dir_to_ini (some "[a]\nx = 1\n".data) "D:\\q".data)) "D:\\q".data))
        = some "D:\\q".data
      ∧ (rustLines (write_tdx_dir_to_ini
            (some (write_tdx_dir_to_ini (some "[a]\nx = 1\n".data) "D:\\q".data)) "D:\\q".data)).filter
            (fun l => !(isTdxLine l))
        = (rustLines (write_tdx_dir_to_ini (some "[a]\nx = 1\n".data) "D:\\q".data)).filter
            (fun l => !(isTdxLine l)) :=
  c4_theorem "[a]\nx = 1\n".data "D:\\q".data (by decide) (by decide) (by decide)

/-- C9 (witness): the equivalences at a concrete state. -/
theorem c9_witness :
    ((ensure_tdx_path_configured ⟨none, fun _ => false⟩).2.error_msg = []
        ↔ (ensure_tdx_path_configured ⟨none, fun _ => false⟩).2.is_valid = true)
      ∧ ((set_new_tdx_path ⟨none, fun _ => false⟩ "q".data).2.error_msg = []
        ↔ (set_new_tdx_path ⟨none, fun _ => false⟩ "q".data).2.is_valid = true) :=
  c9_theorem ⟨none, fun _ => false⟩ "q".data

end TrayApp
